import Mathlib

/-!
A shallow embedding of the TableGen parser's semantic-resolution engine,
from `lib/TableGen/TGParser.h`.  The header gives inline bodies for the
`TGParser` constructor, `Error`, `TokError` and the string overload of
`SetValue`; those are embedded directly from the source.  The remaining
members are only declared in the header, so their behaviour is modelled
from the specification, as noted on each definition.  Machine state that
the C++ class keeps in member variables (the let stack, the loop vector,
the record keeper, the emitted diagnostics) is threaded explicitly.
-/

namespace TableGen

/-- Source locations (`llvm::SMLoc`), abstracted to an index into the buffer. -/
abbrev SMLoc := Nat

/-- One emitted diagnostic: a source location plus a human-readable message. -/
structure Diag where
  loc : SMLoc
  msg : String
deriving DecidableEq

/-- Modelled from the spec: the types of record fields that the claims need
(`int`, `string`, and fixed-width `bits<w>`). -/
inductive RecTy where
  | intTy : RecTy
  | stringTy : RecTy
  | bitsTy : Nat → RecTy
deriving DecidableEq

/-- Modelled from the spec: typed value expressions (`llvm::Init`).  The
parser constructs and queries these; `varInit` is an iteration-variable or
template-argument reference, `pasteI` is the `#` name-paste operator used to
build generated record names, and a `bitsInit` bit may be individually unset. -/
inductive Init where
  | intInit : Int → Init
  | stringInit : String → Init
  | varInit : String → Init
  | pasteI : Init → Init → Init
  | bitsInit : List (Option Bool) → Init
  | unsetInit : Init
deriving DecidableEq

/-- `StringInit::get`: builds the string value used as a field name. -/
def StringInit.get (s : String) : Init := Init.stringInit s

/-- Modelled from the spec: rendering of a (fully substituted) name value as
the record-name string — integers print their decimal form and `#` pastes
concatenate. -/
def getAsUnquotedString : Init → String
  | Init.intInit n => toString n
  | Init.stringInit s => s
  | Init.varInit v => v
  | Init.pasteI a b => getAsUnquotedString a ++ getAsUnquotedString b
  | Init.bitsInit _ => ""
  | Init.unsetInit => ""

/-- Modelled from the spec: substitute one bound variable by its value
throughout a value expression (a pure tree rewrite). -/
def resolveVar (v : String) (x : Init) : Init → Init
  | Init.varInit w => if w = v then x else Init.varInit w
  | Init.pasteI a b => Init.pasteI (resolveVar v x a) (resolveVar v x b)
  | i => i

/-- A field slot of a record (`RecordVal`): name, declared type, current
value.  `localInit` is modelled from the spec: it marks a field whose value
was assigned locally in the record body, which a `let` override must not
replace. -/
structure RecordVal where
  name : String
  ty : RecTy
  value : Init
  localInit : Bool
deriving DecidableEq

/-- A record under construction or finalized: a name value and an ordered
field list. -/
structure Record where
  name : Init
  values : List RecordVal
deriving DecidableEq

/-- Field lookup by name in an ordered field list. -/
def findVal (vs : List RecordVal) (n : String) : Option RecordVal :=
  vs.find? (fun rv => rv.name = n)

/-- `Record::getValue`: look up a field of a record by name. -/
def getValue (r : Record) (n : String) : Option RecordVal :=
  findVal r.values n

/-- Replace the value of the fields named `n` (names, types and local flags
are untouched). -/
def setVals (vs : List RecordVal) (n : String) (v : Init) : List RecordVal :=
  vs.map (fun rv => if rv.name = n then { rv with value := v } else rv)

/-- Replace the value of field `n` of a record. -/
def setField (r : Record) (n : String) (v : Init) : Record :=
  { r with values := setVals r.values n v }

/-- One scoped override (header `struct LetRecord`): target field name,
optional bit list, value, source location. -/
structure LetRecord where
  Name : String
  Bits : List Nat
  Value : Init
  Loc : SMLoc
deriving DecidableEq

/-- One active `foreach` loop (header `struct ForeachLoop`): the iteration
variable and the list value it ranges over, evaluated once at loop entry. -/
structure ForeachLoop where
  IterVar : String
  ListValue : List Init
deriving DecidableEq

/-- Map an iterator name to a value (header `struct TGParser::IterRecord`). -/
structure IterRecord where
  IterVar : String
  IterValue : Init
deriving DecidableEq

/-- The set of all iterator values at some point in the iteration space
(header `typedef TGParser::IterSet`). -/
abbrev IterSet := List IterRecord

/-- Modelled from the spec: a formal template argument — name and optional
declared default value. -/
structure TemplateArg where
  name : String
  dflt : Option Init
deriving DecidableEq

/-- Modelled from the spec: a parsed class — its record body (own plus
already-merged inherited fields) and its formal template-argument list. -/
structure ClassRec where
  body : Record
  templateArgs : List TemplateArg
deriving DecidableEq

/-- Apply a list of (position, bit) updates to a bit vector, replacing only
the covered bits. -/
def applyBitUpdates (old : List (Option Bool)) : List (Nat × Option Bool) → List (Option Bool)
  | [] => old
  | u :: us => applyBitUpdates (old.set u.1 u.2) us

/-- Substitute a whole iterator set throughout a value expression. -/
def resolveIterSet (env : IterSet) (i : Init) : Init :=
  env.foldl (fun acc ir => resolveVar ir.IterVar ir.IterValue acc) i

/-- Clone a record template, substituting every bound iteration variable by
its value throughout the name and all field value expressions. -/
def substRecord (env : IterSet) (r : Record) : Record :=
  { name := resolveIterSet env r.name
    values := r.values.map (fun rv => { rv with value := resolveIterSet env rv.value }) }

namespace TGParser

/-- `PrintError` (external diagnostics sink, modelled as an explicit
diagnostic stream): emits one location-tagged diagnostic. -/
def PrintError (L : SMLoc) (Msg : String) (diags : List Diag) : List Diag :=
  diags ++ [⟨L, Msg⟩]

/-- `TGParser::Error` from the header: print the diagnostic, return `true`
(the error indicator). -/
def Error (L : SMLoc) (Msg : String) (diags : List Diag) : Bool × List Diag :=
  (true, PrintError L Msg diags)

/-- A minimal lexer state: `TGLexer::getLoc` is the current location. -/
structure LexState where
  curLoc : SMLoc
deriving DecidableEq

/-- `TGParser::TokError` from the header: `Error` at the lexer's current
location. -/
def TokError (Lex : LexState) (Msg : String) (diags : List Diag) : Bool × List Diag :=
  Error Lex.curLoc Msg diags

/-- Modelled from the spec: `TGParser::SetValue` (the `Init*` overload, whose
body is not in the header).  Applies a field value or bit-range update:
unknown field is an error; an empty bit list replaces the whole value; a
nonempty bit list requires a `bits<w>` field, positions inside the declared
width and a matching bits value, and replaces only the covered bits.  Every
error path returns `true` and leaves the record unchanged. -/
def SetValue (TheRec : Record) (Loc : SMLoc) (ValName : Init) (BitList : List Nat)
    (V : Init) : Bool × Record :=
  let n := getAsUnquotedString ValName
  match getValue TheRec n with
  | none => (true, TheRec)
  | some RV =>
    if BitList = [] then
      (false, setField TheRec n V)
    else
      match RV.ty, V with
      | RecTy.bitsTy w, Init.bitsInit vb =>
        if BitList.any (fun i => w ≤ i) || (vb.length != BitList.length) then
          (true, TheRec)
        else
          let ob := match RV.value with
            | Init.bitsInit ob => ob
            | _ => List.replicate w none
          (false, setField TheRec n (Init.bitsInit (applyBitUpdates ob (BitList.zip vb))))
      | _, _ => (true, TheRec)

/-- `TGParser::SetValue` (string overload) from the header: forwards to the
`Init*` overload through `StringInit::get`. -/
def SetValueStr (TheRec : Record) (Loc : SMLoc) (ValName : String) (BitList : List Nat)
    (V : Init) : Bool × Record :=
  SetValue TheRec Loc (StringInit.get ValName) BitList V

/-- Modelled from the spec: `TGParser::AddValue`.  A new field is appended;
a field already declared locally is left untouched when the declarations are
type-compatible, and is an error otherwise. -/
def AddValue (TheRec : Record) (Loc : SMLoc) (RV : RecordVal) : Bool × Record :=
  match getValue TheRec RV.name with
  | none => (false, { TheRec with values := TheRec.values ++ [RV] })
  | some old => if old.ty = RV.ty then (false, TheRec) else (true, TheRec)

/-- Merge a base class's (substituted) field list into a record, in
declaration order, via `AddValue`. -/
def mergeFields (TheRec : Record) (Loc : SMLoc) : List RecordVal → Bool × Record
  | [] => (false, TheRec)
  | bf :: rest =>
    let r1 := AddValue TheRec Loc bf
    let r2 := mergeFields r1.2 Loc rest
    (r1.1 || r2.1, r2.2)

/-- Modelled from the spec: positional template-argument binding.  Explicit
values bind positionally to the formal list, each unfilled trailing formal
takes its declared default, and binding fails when a formal is left with
neither a value nor a default (or when there are more values than formals). -/
def bindArgs : List TemplateArg → List Init → Option (List IterRecord)
  | [], [] => some []
  | [], _ :: _ => none
  | f :: fs, [] =>
    match f.dflt with
    | some d => (bindArgs fs []).map (fun env => ⟨f.name, d⟩ :: env)
    | none => none
  | f :: fs, a :: as_ => (bindArgs fs as_).map (fun env => ⟨f.name, a⟩ :: env)

/-- Modelled from the spec: `TGParser::AddSubClass`.  Binds the reference's
explicit argument values against the class's formal template arguments
(failure registers nothing and changes nothing), then merges the base's
substituted fields into the record; inherited fields are copied in only when
not already declared locally, and are `let`-overridable (`localInit` clear). -/
def AddSubClass (Rec : Record) (Loc : SMLoc) (cls : ClassRec) (args : List Init) :
    Bool × Record :=
  match bindArgs cls.templateArgs args with
  | none => (true, Rec)
  | some env =>
    mergeFields Rec Loc
      (cls.body.values.map (fun bf =>
        { bf with value := resolveIterSet env bf.value, localInit := false }))

/-- Modelled from the spec: apply one `LetRecord` override to a record.  A
missing target field is an error; a field assigned locally in the record
body is left untouched (local wins); otherwise the override is applied via
`SetValue`. -/
def applyLetRecord (CurRec : Record) (lr : LetRecord) : Bool × Record :=
  match getValue CurRec lr.Name with
  | none => (true, CurRec)
  | some rv =>
    if rv.localInit then (false, CurRec)
    else SetValue CurRec lr.Loc (StringInit.get lr.Name) lr.Bits lr.Value

/-- Apply one `let` scope's overrides in order. -/
def applyScope (CurRec : Record) : List LetRecord → Bool × Record
  | [] => (false, CurRec)
  | lr :: rest =>
    let r1 := applyLetRecord CurRec lr
    let r2 := applyScope r1.2 rest
    (r1.1 || r2.1, r2.2)

/-- Modelled from the spec: `TGParser::ApplyLetStack`.  The stack is held
innermost scope first (scope entry conses); overrides are applied outer
scopes first and inner scopes last, so inner scopes win on conflicting
targets. -/
def ApplyLetStack (CurRec : Record) : List (List LetRecord) → Bool × Record
  | [] => (false, CurRec)
  | s :: rest =>
    let r1 := ApplyLetStack CurRec rest
    let r2 := applyScope r1.2 s
    (r1.1 || r2.1, r2.2)

/-- Modelled from the spec: `RecordKeeper::addDef` with its uniqueness
check — registration of a name that is already finalized fails and leaves
the database unchanged (check-then-insert, append-only). -/
def addDef (db : List Record) (r : Record) : Bool × List Record :=
  if db.any (fun r0 => getAsUnquotedString r0.name = getAsUnquotedString r.name) then
    (true, db)
  else (false, db ++ [r])

/-- Modelled from the spec: the iteration space of the ordered (outer first)
loop vector, enumerated depth-first from the outermost loop inward, so the
inner loop varies fastest within each outer binding. -/
def iterSets : List ForeachLoop → List IterSet
  | [] => [[]]
  | l :: rest =>
    l.ListValue.flatMap (fun v => (iterSets rest).map (fun env => ⟨l.IterVar, v⟩ :: env))

/-- Register one substituted clone of the record template per iterator set,
in enumeration order, with the duplicate check on each insertion. -/
def registerClones (CurRec : Record) (db : List Record) : List IterSet → Bool × List Record
  | [] => (false, db)
  | env :: rest =>
    let r1 := addDef db (substRecord env CurRec)
    let r2 := registerClones CurRec r1.2 rest
    (r1.1 || r2.1, r2.2)

/-- Modelled from the spec: `TGParser::ProcessForeachDefs`.  At full depth
(all loops bound) the record template is cloned, substituted and registered;
with no active loops this registers the record itself exactly once. -/
def ProcessForeachDefs (CurRec : Record) (Loops : List ForeachLoop)
    (db : List Record) : Bool × List Record :=
  registerClones CurRec db (iterSets Loops)

/-- Modelled from the spec: `TGParser::InstantiateMulticlassDef` restricted
to one prototype — bind the `defm`'s template values against the
multiclass's formals (failure registers nothing), then substitute into the
prototype and register it with the duplicate check. -/
def InstantiateMulticlassDef (db : List Record) (formals : List TemplateArg)
    (DefProto : Record) (TemplateVals : List Init) : Bool × List Record :=
  match bindArgs formals TemplateVals with
  | none => (true, db)
  | some env => addDef db (substRecord env DefProto)

/-- A body field declaration: name, declared type, optional initializer
value (`some` marks a field assigned locally in the body). -/
structure FieldDecl where
  name : String
  ty : RecTy
  valOpt : Option Init
deriving DecidableEq

/-- Modelled from the spec: the top-level object shapes the claims need —
`def`s with field declarations, `foreach` blocks and `let` blocks, in
sequence.  Bodies are already well bracketed (an unmatched scope-open is a
lexical error before semantic analysis). -/
inductive TGObject where
  | objNil : TGObject
  | objSeq : TGObject → TGObject → TGObject
  | objDef : SMLoc → Init → List FieldDecl → TGObject
  | objForeach : String → List Init → TGObject → TGObject
  | objLet : List LetRecord → TGObject → TGObject
deriving DecidableEq

/-- The parser's member state, threaded explicitly: the let stack, the loop
vector, the record keeper and the emitted diagnostics. -/
structure PState where
  letStack : List (List LetRecord)
  loops : List ForeachLoop
  records : List Record
  diags : List Diag
deriving DecidableEq

/-- The constructor from the header: the let stack and the loop vector start
out empty, as does the record database and the diagnostic stream. -/
def initState : PState := ⟨[], [], [], []⟩

/-- Build the record template of a `def` body: declared fields in order,
initialized fields marked locally assigned. -/
def buildRec (nm : Init) (fields : List FieldDecl) : Record :=
  { name := nm
    values := fields.map (fun f =>
      { name := f.name, ty := f.ty, value := f.valOpt.getD Init.unsetInit,
        localInit := f.valOpt.isSome }) }

/-- Modelled from the spec: the object-list driver.  A `def` accumulates its
fields, applies the let stack, then hands the template to the foreach
engine for substitution and registration; `foreach` pushes one loop for the
extent of its body and pops it on exit (also on error exits); `let` does
the same with one override scope.  Every error emits a location-tagged
diagnostic at the offending construct before the error indicator
propagates. -/
def evalObj : TGObject → PState → Bool × PState
  | TGObject.objNil, s => (false, s)
  | TGObject.objSeq a b, s =>
    let r1 := evalObj a s
    let r2 := evalObj b r1.2
    (r1.1 || r2.1, r2.2)
  | TGObject.objDef loc nm fields, s =>
    let r1 := ApplyLetStack (buildRec nm fields) s.letStack
    if r1.1 then (true, { s with diags := PrintError loc "invalid let override" s.diags })
    else
      let r2 := ProcessForeachDefs r1.2 s.loops s.records
      if r2.1 then
        (true, { s with records := r2.2,
                        diags := PrintError loc "def already defined" s.diags })
      else (false, { s with records := r2.2 })
  | TGObject.objForeach v xs body, s =>
    let r := evalObj body { s with loops := s.loops ++ [⟨v, xs⟩] }
    (r.1, { r.2 with loops := r.2.loops.dropLast })
  | TGObject.objLet lets body, s =>
    let r := evalObj body { s with letStack := lets :: s.letStack }
    (r.1, { r.2 with letStack := r.2.letStack.tail })

/-- `TGParser::ParseFile`: run the top-level object list from the freshly
constructed parser state; returns `true` on error, `false` on success,
alongside the final state. -/
def ParseFile (objs : TGObject) : Bool × PState :=
  evalObj objs initState

/-- Modelled from the spec: the flat top-level item stream as the
declaration parser sees it, with scope-opens (`foreach ... in {`,
`let ... in {`) and scope-closes (`}`) as separate items, so that an
ill-bracketed input — a scope still open at end of input, or a stray
close — is expressible. -/
inductive ObjItem where
  | itemDef : SMLoc → Init → List FieldDecl → ObjItem
  | itemForeachOpen : SMLoc → String → List Init → ObjItem
  | itemLetOpen : SMLoc → List LetRecord → ObjItem
  | itemClose : SMLoc → ObjItem
deriving DecidableEq

/-- One scope whose opening brace has been consumed but whose closing brace
has not yet been seen. -/
inductive OpenScope where
  | openForeach : SMLoc → String → List Init → OpenScope
  | openLet : SMLoc → List LetRecord → OpenScope
deriving DecidableEq

/-- The source location at which a still-open scope was opened. -/
def scopeLoc : OpenScope → SMLoc
  | OpenScope.openForeach l _ _ => l
  | OpenScope.openLet l _ => l

/-- Modelled from the spec: the object-list grammar driver over the flat
item stream.  `cur` is the sequence built for the innermost open scope and
`st` the stack of enclosing open scopes.  Reaching end of input with a
scope still open is a fatal error (reported at that scope's opening
location), as is a close with no scope open; a balanced stream assembles
into the nested object tree. -/
def assemble : List ObjItem → TGObject → List (OpenScope × TGObject) →
    Except SMLoc TGObject
  | [], cur, [] => Except.ok cur
  | [], _, top :: _ => Except.error (scopeLoc top.1)
  | ObjItem.itemDef l nm fs :: rest, cur, st =>
    assemble rest (TGObject.objSeq cur (TGObject.objDef l nm fs)) st
  | ObjItem.itemForeachOpen l v xs :: rest, cur, st =>
    assemble rest TGObject.objNil ((OpenScope.openForeach l v xs, cur) :: st)
  | ObjItem.itemLetOpen l lrs :: rest, cur, st =>
    assemble rest TGObject.objNil ((OpenScope.openLet l lrs, cur) :: st)
  | ObjItem.itemClose l :: _, _, [] => Except.error l
  | ObjItem.itemClose _ :: rest, cur, (OpenScope.openForeach _ v xs, prev) :: st =>
    assemble rest (TGObject.objSeq prev (TGObject.objForeach v xs cur)) st
  | ObjItem.itemClose _ :: rest, cur, (OpenScope.openLet _ lrs, prev) :: st =>
    assemble rest (TGObject.objSeq prev (TGObject.objLet lrs cur)) st

/-- `TGParser::ParseObjectList` over the flat item stream: parse the whole
top level, starting with no scope open. -/
def ParseObjectList (items : List ObjItem) : Except SMLoc TGObject :=
  assemble items TGObject.objNil []

/-- Scope-bracket balance of an item stream, scanning at a given open-scope
depth: a stream is accepted only if every open is closed (depth back to
zero at the end) and no close appears at depth zero. -/
def balancedFrom : Nat → List ObjItem → Bool
  | 0, [] => true
  | _ + 1, [] => false
  | d, ObjItem.itemDef _ _ _ :: rest => balancedFrom d rest
  | d, ObjItem.itemForeachOpen _ _ _ :: rest => balancedFrom (d + 1) rest
  | d, ObjItem.itemLetOpen _ _ :: rest => balancedFrom (d + 1) rest
  | 0, ObjItem.itemClose _ :: _ => false
  | d + 1, ObjItem.itemClose _ :: rest => balancedFrom d rest

/-- A top-level item stream is balanced when its scan starts and ends at
depth zero. -/
def balancedItems (items : List ObjItem) : Bool :=
  balancedFrom 0 items

/-- `ParseFile` from the raw item stream: parse the object list, then run
the semantic driver; a parse failure (an unmatched scope at end of input,
or a stray close) is fatal — the diagnostic is emitted at the offending
location and nothing is evaluated or registered. -/
def ParseFileItems (items : List ObjItem) : Bool × PState :=
  match ParseObjectList items with
  | Except.error l =>
    (true, { initState with
             diags := PrintError l "unexpected end of input: unmatched scope"
                        initState.diags })
  | Except.ok objs => ParseFile objs

end TGParser

open TGParser

/-- The nested-foreach input: two loops over a pasted def name. -/
def nestedForeachInput : TGObject :=
  TGObject.objForeach "i" [Init.intInit 1, Init.intInit 2]
    (TGObject.objForeach "j" [Init.intInit 3, Init.intInit 4]
      (TGObject.objDef 0
        (Init.pasteI (Init.pasteI (Init.stringInit "D") (Init.varInit "i"))
          (Init.varInit "j")) []))

/-- The top-level-let input: one override scope over two defs, the second
of which assigns the target field locally. -/
def letInput : TGObject :=
  TGObject.objLet [⟨"X", [], Init.intInit 7, 0⟩]
    (TGObject.objSeq
      (TGObject.objDef 1 (Init.stringInit "A") [⟨"X", RecTy.intTy, none⟩])
      (TGObject.objDef 2 (Init.stringInit "B")
        [⟨"X", RecTy.intTy, some (Init.intInit 9)⟩]))

/-- A foreach whose two iterations compute the same record name. -/
def dupForeachInput : TGObject :=
  TGObject.objForeach "i" [Init.intInit 1, Init.intInit 1]
    (TGObject.objDef 0 (Init.pasteI (Init.stringInit "E") (Init.varInit "i")) [])

/-! ### Basic lemmas about field lookup and update -/

theorem getAsUnquotedString_stringInit (s : String) :
    getAsUnquotedString (StringInit.get s) = s := rfl

theorem findVal_cons_self {x : RecordVal} {vs : List RecordVal} {n : String}
    (h : x.name = n) : findVal (x :: vs) n = some x := by
  simp [findVal, List.find?_cons, h]

theorem findVal_cons_ne {x : RecordVal} {vs : List RecordVal} {n : String}
    (h : ¬ x.name = n) : findVal (x :: vs) n = findVal vs n := by
  simp [findVal, List.find?_cons, h]

theorem findVal_name {vs : List RecordVal} {n : String} {rv : RecordVal}
    (h : findVal vs n = some rv) : rv.name = n := by
  have := List.find?_some h
  simpa using this

theorem findVal_setVals_self (vs : List RecordVal) (n : String) (v : Init) :
    findVal (setVals vs n v) n = (findVal vs n).map (fun rv => { rv with value := v }) := by
  induction vs with
  | nil => rfl
  | cons x xs ih =>
    by_cases hx : x.name = n
    · rw [show setVals (x :: xs) n v = { x with value := v } :: setVals xs n v by
        simp [setVals, hx]]
      rw [findVal_cons_self (by simpa using hx), findVal_cons_self hx]
      rfl
    · rw [show setVals (x :: xs) n v = x :: setVals xs n v by simp [setVals, hx]]
      rw [findVal_cons_ne hx, findVal_cons_ne hx]
      exact ih

theorem findVal_setVals_ne {m n : String} (h : m ≠ n) (vs : List RecordVal) (v : Init) :
    findVal (setVals vs m v) n = findVal vs n := by
  induction vs with
  | nil => rfl
  | cons x xs ih =>
    by_cases hx : x.name = m
    · rw [show setVals (x :: xs) m v = { x with value := v } :: setVals xs m v by
        simp [setVals, hx]]
      have hxn : ¬ x.name = n := by rw [hx]; exact h
      rw [findVal_cons_ne (by simpa using hxn), findVal_cons_ne hxn]
      exact ih
    · rw [show setVals (x :: xs) m v = x :: setVals xs m v by simp [setVals, hx]]
      by_cases hn : x.name = n
      · rw [findVal_cons_self hn, findVal_cons_self hn]
      · rw [findVal_cons_ne hn, findVal_cons_ne hn]
        exact ih

theorem getValue_setField_self (r : Record) (n : String) (v : Init) :
    getValue (setField r n v) n = (getValue r n).map (fun rv => { rv with value := v }) :=
  findVal_setVals_self r.values n v

theorem getValue_setField_ne {m n : String} (h : m ≠ n) (r : Record) (v : Init) :
    getValue (setField r m v) n = getValue r n :=
  findVal_setVals_ne h r.values v

theorem SetValue_not_found {r : Record} {loc : SMLoc} {nm : Init} {bits : List Nat} {v : Init}
    (h : getValue r (getAsUnquotedString nm) = none) :
    SetValue r loc nm bits v = (true, r) := by
  simp [SetValue, h]

theorem SetValue_whole {r : Record} {loc : SMLoc} {nm : Init} {v : Init} {rv : RecordVal}
    (h : getValue r (getAsUnquotedString nm) = some rv) :
    SetValue r loc nm [] v = (false, setField r (getAsUnquotedString nm) v) := by
  simp [SetValue, h]

theorem SetValue_cases (r : Record) (loc : SMLoc) (nm : Init) (bits : List Nat) (v : Init) :
    (SetValue r loc nm bits v).2 = r ∨
    ∃ u, (SetValue r loc nm bits v).2 = setField r (getAsUnquotedString nm) u := by
  cases h : getValue r (getAsUnquotedString nm) with
  | none => rw [SetValue_not_found h]
            left
            rfl
  | some RV =>
    by_cases hb : bits = []
    · rw [hb, SetValue_whole h]
      right
      exact ⟨v, rfl⟩
    · obtain ⟨rn, rty, rvv, rli⟩ := RV
      cases rty <;> cases v <;>
        simp only [SetValue, h, hb] <;>
        first
          | (left; rfl)
          | (rw [if_neg not_false]
             split
             · left; rfl
             · right; exact ⟨_, rfl⟩)

theorem getValue_applyLetRecord_local {r : Record} {lr : LetRecord} {n : String}
    {rv : RecordVal} (h : getValue r n = some rv) (hl : rv.localInit = true) :
    getValue ((applyLetRecord r lr).2) n = some rv := by
  by_cases he : lr.Name = n
  · subst he
    unfold applyLetRecord
    rw [h]
    dsimp only
    rw [if_pos hl]
    exact h
  · unfold applyLetRecord
    cases hx : getValue r lr.Name with
    | none => exact h
    | some rx =>
      dsimp only
      by_cases hlx : rx.localInit = true
      · rw [if_pos hlx]
        exact h
      · rw [if_neg hlx]
        rcases SetValue_cases r lr.Loc (StringInit.get lr.Name) lr.Bits lr.Value with hc | ⟨u, hc⟩
        · rw [hc]; exact h
        · rw [getAsUnquotedString_stringInit] at hc
          rw [hc, getValue_setField_ne he]
          exact h

theorem getValue_applyLetRecord_skel {r : Record} {lr : LetRecord} {n : String}
    {rv : RecordVal} (h : getValue r n = some rv) :
    ∃ u, getValue ((applyLetRecord r lr).2) n = some { rv with value := u } := by
  have hcases : (applyLetRecord r lr).2 = r ∨
      ∃ u, (applyLetRecord r lr).2 = setField r lr.Name u := by
    unfold applyLetRecord
    cases hx : getValue r lr.Name with
    | none => left; rfl
    | some rx =>
      dsimp only
      by_cases hlx : rx.localInit = true
      · rw [if_pos hlx]
        left; rfl
      · rw [if_neg hlx]
        rcases SetValue_cases r lr.Loc (StringInit.get lr.Name) lr.Bits lr.Value with hc | ⟨u, hc⟩
        · left; exact hc
        · right
          rw [getAsUnquotedString_stringInit] at hc
          exact ⟨u, hc⟩
  rcases hcases with hc | ⟨u, hc⟩
  · rw [hc]
    exact ⟨rv.value, by simpa using h⟩
  · rw [hc]
    by_cases he : lr.Name = n
    · subst he
      rw [getValue_setField_self, h]
      exact ⟨u, rfl⟩
    · rw [getValue_setField_ne he]
      exact ⟨rv.value, by simpa using h⟩

theorem getValue_applyScope_local :
    ∀ (sc : List LetRecord) (r : Record) (n : String) (rv : RecordVal),
      getValue r n = some rv → rv.localInit = true →
      getValue ((applyScope r sc).2) n = some rv := by
  intro sc
  induction sc with
  | nil => intro r n rv h _; simpa [applyScope] using h
  | cons lr rest ih =>
    intro r n rv h hl
    simp only [applyScope]
    exact ih _ _ _ (getValue_applyLetRecord_local h hl) hl

theorem getValue_applyScope_skel :
    ∀ (sc : List LetRecord) (r : Record) (n : String) (rv : RecordVal),
      getValue r n = some rv →
      ∃ u, getValue ((applyScope r sc).2) n = some { rv with value := u } := by
  intro sc
  induction sc with
  | nil => intro r n rv h; exact ⟨rv.value, by simpa [applyScope] using h⟩
  | cons lr rest ih =>
    intro r n rv h
    simp only [applyScope]
    obtain ⟨u1, h1⟩ := @getValue_applyLetRecord_skel _ lr _ _ h
    obtain ⟨u2, h2⟩ := ih _ _ _ h1
    exact ⟨u2, h2⟩

theorem getValue_ApplyLetStack_local :
    ∀ (stack : List (List LetRecord)) (r : Record) (n : String) (rv : RecordVal),
      getValue r n = some rv → rv.localInit = true →
      getValue ((ApplyLetStack r stack).2) n = some rv := by
  intro stack
  induction stack with
  | nil => intro r n rv h _; simpa [ApplyLetStack] using h
  | cons sc rest ih =>
    intro r n rv h hl
    simp only [ApplyLetStack]
    exact getValue_applyScope_local _ _ _ _ (ih _ _ _ h hl) hl

theorem getValue_ApplyLetStack_skel :
    ∀ (stack : List (List LetRecord)) (r : Record) (n : String) (rv : RecordVal),
      getValue r n = some rv →
      ∃ u, getValue ((ApplyLetStack r stack).2) n = some { rv with value := u } := by
  intro stack
  induction stack with
  | nil => intro r n rv h; exact ⟨rv.value, by simpa [ApplyLetStack] using h⟩
  | cons sc rest ih =>
    intro r n rv h
    simp only [ApplyLetStack]
    obtain ⟨u1, h1⟩ := ih _ _ _ h
    obtain ⟨u2, h2⟩ := getValue_applyScope_skel sc _ _ _ h1
    exact ⟨u2, h2⟩

theorem applyScope_single_set {r : Record} {n : String} {rv : RecordVal}
    (h : getValue r n = some rv) (hl : rv.localInit = false) (v : Init) (loc : SMLoc) :
    getValue ((applyScope r [⟨n, [], v, loc⟩]).2) n = some { rv with value := v } := by
  simp only [applyScope]
  unfold applyLetRecord
  dsimp only
  rw [h]
  dsimp only
  rw [if_neg (by rw [hl]; exact Bool.false_ne_true)]
  rw [show SetValue r loc (StringInit.get n) [] v
        = (false, setField r (getAsUnquotedString (StringInit.get n)) v) from
      SetValue_whole (by rw [getAsUnquotedString_stringInit]; exact h)]
  rw [getAsUnquotedString_stringInit]
  rw [getValue_setField_self, h]
  rfl

theorem getValue_ApplyLetStack_inner {r : Record} {stack : List (List LetRecord)}
    {n : String} {rv : RecordVal} (h : getValue r n = some rv)
    (hl : rv.localInit = false) (v : Init) (loc : SMLoc) :
    getValue ((ApplyLetStack r ([⟨n, [], v, loc⟩] :: stack)).2) n
      = some { rv with value := v } := by
  simp only [ApplyLetStack]
  obtain ⟨u, hu⟩ := getValue_ApplyLetStack_skel stack r n rv h
  have hl' : ({ rv with value := u } : RecordVal).localInit = false := hl
  have := applyScope_single_set hu hl' v loc
  simpa using this


/-! ### Lemmas about subclass field merging -/

theorem findVal_append (vs ws : List RecordVal) (n : String) :
    findVal (vs ++ ws) n = (findVal vs n).or (findVal ws n) :=
  List.find?_append

theorem findVal_isSome_iff {vs : List RecordVal} {n : String} :
    (findVal vs n).isSome ↔ ∃ rv ∈ vs, rv.name = n := by
  simp [findVal, List.find?_isSome]

theorem findVal_of_mem_nodup {vs : List RecordVal} {rv : RecordVal} (hmem : rv ∈ vs)
    (hn : (vs.map RecordVal.name).Nodup) : findVal vs rv.name = some rv := by
  induction vs with
  | nil => cases hmem
  | cons x xs ih =>
    rcases List.mem_cons.mp hmem with rfl | hmem'
    · exact findVal_cons_self rfl
    · have hxn : ¬ x.name = rv.name := by
        intro hx
        have : rv.name ∈ xs.map RecordVal.name := List.mem_map_of_mem _ hmem'
        rw [List.map_cons] at hn
        exact (List.nodup_cons.mp hn).1 (hx ▸ this)
      rw [findVal_cons_ne hxn]
      exact ih hmem' (List.nodup_cons.mp (by rw [List.map_cons] at hn; exact hn)).2

theorem findVal_filter {vs : List RecordVal} {n : String} {rv : RecordVal}
    {p : RecordVal → Bool} (h : findVal vs n = some rv) (hp : p rv = true) :
    findVal (vs.filter p) n = some rv := by
  induction vs with
  | nil => cases h
  | cons x xs ih =>
    by_cases hx : x.name = n
    · rw [findVal_cons_self hx] at h
      obtain rfl : x = rv := by injection h
      rw [List.filter_cons, if_pos hp]
      exact findVal_cons_self hx
    · rw [findVal_cons_ne hx] at h
      rw [List.filter_cons]
      by_cases hpx : p x = true
      · rw [if_pos hpx, findVal_cons_ne hx]
        exact ih h
      · rw [if_neg hpx]
        exact ih h

theorem findVal_filter_isSome {vs : List RecordVal} {n : String} {p : RecordVal → Bool}
    (h : (findVal (vs.filter p) n).isSome) : (findVal vs n).isSome := by
  obtain ⟨rv, hmem, hname⟩ := findVal_isSome_iff.mp h
  exact findVal_isSome_iff.mpr ⟨rv, (List.mem_filter.mp hmem).1, hname⟩

theorem findVal_append_single_ne {vs : List RecordVal} {x : RecordVal} {n : String}
    (h : ¬ x.name = n) : findVal (vs ++ [x]) n = findVal vs n := by
  rw [findVal_append]
  cases hv : findVal vs n with
  | some rv => rfl
  | none =>
    show findVal [x] n = none
    rw [findVal_cons_ne h]
    rfl

theorem mergeFields_spec :
    ∀ (bfs : List RecordVal) (r : Record) (loc : SMLoc),
      (∀ bf ∈ bfs, ∀ rv, getValue r bf.name = some rv → rv.ty = bf.ty) →
      (bfs.map RecordVal.name).Nodup →
      (mergeFields r loc bfs).1 = false ∧
      (mergeFields r loc bfs).2.values
        = r.values ++ bfs.filter (fun bf => (getValue r bf.name).isNone) := by
  intro bfs
  induction bfs with
  | nil => intro r loc _ _; exact ⟨rfl, by simp [mergeFields]⟩
  | cons bf rest ih =>
    intro r loc hc hn
    rw [List.map_cons, List.nodup_cons] at hn
    simp only [mergeFields]
    cases hx : getValue r bf.name with
    | some old =>
      have hty : old.ty = bf.ty := hc bf (by simp) old hx
      have hAdd : AddValue r loc bf = (false, r) := by
        unfold AddValue
        rw [hx]
        dsimp only
        rw [if_pos hty]
      rw [hAdd]
      obtain ⟨h1, h2⟩ :=
        ih r loc (fun b hb rv hrv => hc b (List.mem_cons_of_mem _ hb) rv hrv) hn.2
      refine ⟨by simpa using h1, ?_⟩
      dsimp only at h2 ⊢
      rw [h2, List.filter_cons]
      have hpf : ((getValue r bf.name).isNone : Bool) = false := by rw [hx]; rfl
      rw [hpf]
      simp
    | none =>
      have hAdd : AddValue r loc bf
          = (false, { r with values := r.values ++ [bf] }) := by
        unfold AddValue
        rw [hx]
      rw [hAdd]
      have hc' : ∀ b ∈ rest, ∀ rv,
          getValue { r with values := r.values ++ [bf] } b.name = some rv → rv.ty = b.ty := by
        intro b hb rv hrv
        have hne : ¬ bf.name = b.name := by
          intro he
          exact hn.1 (he ▸ List.mem_map_of_mem _ hb)
        rw [show getValue { r with values := r.values ++ [bf] } b.name
              = findVal (r.values ++ [bf]) b.name from rfl] at hrv
        rw [findVal_append_single_ne hne] at hrv
        exact hc b (List.mem_cons_of_mem _ hb) rv hrv
      obtain ⟨h1, h2⟩ := ih { r with values := r.values ++ [bf] } loc hc' hn.2
      refine ⟨by simpa using h1, ?_⟩
      dsimp only at h2 ⊢
      rw [h2]
      have hfc : rest.filter
            (fun b => (getValue { r with values := r.values ++ [bf] } b.name).isNone)
          = rest.filter (fun b => (getValue r b.name).isNone) := by
        apply List.filter_congr
        intro b hb
        have hne : ¬ bf.name = b.name := by
          intro he
          exact hn.1 (he ▸ List.mem_map_of_mem _ hb)
        rw [show getValue { r with values := r.values ++ [bf] } b.name
              = findVal (r.values ++ [bf]) b.name from rfl]
        rw [findVal_append_single_ne hne]
        rfl
      rw [hfc, List.filter_cons]
      have hpf : ((getValue r bf.name).isNone : Bool) = true := by rw [hx]; rfl
      rw [hpf]
      simp

/-! ### Lemmas about template-argument binding -/

theorem bindArgs_eq_none_iff :
    ∀ (formals : List TemplateArg) (args : List Init),
      bindArgs formals args = none ↔
        (formals.length < args.length ∨
         ∃ ta ∈ formals.drop args.length, ta.dflt = none) := by
  intro formals
  induction formals with
  | nil =>
    intro args
    cases args <;> simp [bindArgs]
  | cons f fs ih =>
    intro args
    cases args with
    | nil =>
      cases hd : f.dflt with
      | none =>
        simp only [bindArgs, hd, List.length_nil, List.drop_zero]
        constructor
        · intro _
          exact Or.inr ⟨f, by simp, hd⟩
        · intro _
          trivial
      | some d =>
        simp only [bindArgs, hd, Option.map_eq_none', List.length_nil, List.drop_zero]
        rw [ih []]
        simp only [List.length_nil, List.drop_zero, Nat.not_lt_zero, false_or]
        constructor
        · rintro ⟨ta, hta, hdn⟩
          exact ⟨ta, List.mem_cons_of_mem _ hta, hdn⟩
        · rintro ⟨ta, hta, hdn⟩
          rcases List.mem_cons.mp hta with rfl | hta'
          · rw [hd] at hdn; cases hdn
          · exact ⟨ta, hta', hdn⟩
    | cons a as_ =>
      simp only [bindArgs, Option.map_eq_none', List.length_cons, List.drop_succ_cons]
      rw [ih as_]
      simp [Nat.succ_lt_succ_iff]

theorem bindArgs_some_spec :
    ∀ (formals : List TemplateArg) (args : List Init) (env : List IterRecord),
      bindArgs formals args = some env →
      env = (formals.zip args).map (fun p => (⟨p.1.name, p.2⟩ : IterRecord))
            ++ (formals.drop args.length).map
                 (fun ta => (⟨ta.name, ta.dflt.getD Init.unsetInit⟩ : IterRecord)) := by
  intro formals
  induction formals with
  | nil =>
    intro args env h
    cases args with
    | nil =>
      simp only [bindArgs, Option.some.injEq] at h
      simp [← h]
    | cons a as_ => cases h
  | cons f fs ih =>
    intro args env h
    cases args with
    | nil =>
      cases hd : f.dflt with
      | none => rw [bindArgs, hd] at h; cases h
      | some d =>
        rw [bindArgs, hd] at h
        rw [Option.map_eq_some'] at h
        obtain ⟨env', henv', rfl⟩ := h
        rw [ih [] env' henv']
        simp [hd]
    | cons a as_ =>
      rw [bindArgs, Option.map_eq_some'] at h
      obtain ⟨env', henv', rfl⟩ := h
      rw [ih as_ env' henv']
      simp

/-! ### Lemmas about record registration -/

theorem addDef_dup {db : List Record} {r : Record}
    (h : ∃ r0 ∈ db, getAsUnquotedString r0.name = getAsUnquotedString r.name) :
    addDef db r = (true, db) := by
  unfold addDef
  rw [if_pos (List.any_eq_true.mpr (by simpa using h))]

theorem addDef_fresh {db : List Record} {r : Record} (h : (addDef db r).1 = false) :
    addDef db r = (false, db ++ [r]) := by
  by_cases hc : (db.any fun r0 =>
      getAsUnquotedString r0.name = getAsUnquotedString r.name) = true
  · rw [show addDef db r = (true, db) from by unfold addDef; rw [if_pos hc]] at h
    cases h
  · unfold addDef
    rw [if_neg hc]

/-! ### Scope-balance and diagnostic invariants of the object-list driver -/

theorem evalObj_stack_inv :
    ∀ (o : TGObject) (s : PState),
      (evalObj o s).2.letStack = s.letStack ∧ (evalObj o s).2.loops = s.loops := by
  intro o
  induction o with
  | objNil => intro s; exact ⟨rfl, rfl⟩
  | objSeq a b iha ihb =>
    intro s
    simp only [evalObj]
    exact ⟨by rw [(ihb _).1, (iha s).1], by rw [(ihb _).2, (iha s).2]⟩
  | objDef loc nm fields =>
    intro s
    simp only [evalObj]
    split
    · exact ⟨rfl, rfl⟩
    · split
      · exact ⟨rfl, rfl⟩
      · exact ⟨rfl, rfl⟩
  | objForeach v xs body ih =>
    intro s
    simp only [evalObj]
    refine ⟨by rw [(ih _).1], ?_⟩
    show (evalObj body _).2.loops.dropLast = s.loops
    rw [(ih _).2]
    exact List.dropLast_concat
  | objLet lets body ih =>
    intro s
    simp only [evalObj]
    refine ⟨?_, by rw [(ih _).2]⟩
    show (evalObj body _).2.letStack.tail = s.letStack
    rw [(ih _).1]
    rfl

theorem evalObj_diag_inv :
    ∀ (o : TGObject) (s : PState),
      ∃ ds, (evalObj o s).2.diags = s.diags ++ ds ∧
        ((evalObj o s).1 = true ↔ ds ≠ []) := by
  intro o
  induction o with
  | objNil => intro s; exact ⟨[], by simp [evalObj], by simp [evalObj]⟩
  | objSeq a b iha ihb =>
    intro s
    obtain ⟨d1, h1, e1⟩ := iha s
    obtain ⟨d2, h2, e2⟩ := ihb (evalObj a s).2
    refine ⟨d1 ++ d2, ?_, ?_⟩
    · simp only [evalObj]
      rw [h2, h1, List.append_assoc]
    · simp only [evalObj, Bool.or_eq_true, e1, e2]
      rw [Ne, Ne, Ne, List.append_eq_nil]
      tauto
  | objDef loc nm fields =>
    intro s
    simp only [evalObj]
    split
    · exact ⟨[⟨loc, "invalid let override"⟩], by simp [PrintError], by simp⟩
    · split
      · exact ⟨[⟨loc, "def already defined"⟩], by simp [PrintError], by simp⟩
      · exact ⟨[], by simp, by simp⟩
  | objForeach v xs body ih =>
    intro s
    obtain ⟨ds, h1, h2⟩ := ih { s with loops := s.loops ++ [⟨v, xs⟩] }
    exact ⟨ds, by simp only [evalObj]; exact h1, by simp only [evalObj]; exact h2⟩
  | objLet lets body ih =>
    intro s
    obtain ⟨ds, h1, h2⟩ := ih { s with letStack := lets :: s.letStack }
    exact ⟨ds, by simp only [evalObj]; exact h1, by simp only [evalObj]; exact h2⟩

theorem findVal_map_localFalse (l : List RecordVal) (n : String) :
    findVal (l.map (fun bf => { bf with localInit := false })) n
      = (findVal l n).map (fun bf => { bf with localInit := false }) := by
  induction l with
  | nil => rfl
  | cons x xs ih =>
    by_cases hx : x.name = n
    · rw [List.map_cons]
      rw [findVal_cons_self
        (show ({ x with localInit := false } : RecordVal).name = n from hx)]
      rw [findVal_cons_self hx]
      rfl
    · rw [List.map_cons]
      rw [findVal_cons_ne
        (show ¬ ({ x with localInit := false } : RecordVal).name = n from hx)]
      rw [findVal_cons_ne hx]
      exact ih

/-- C1: parsing `foreach i=[1,2] in { foreach j=[3,4] in { def D#i#j; } }`
succeeds and produces exactly the four records D13, D14, D23, D24, in that
order and no others; and foreach expansion of a two-deep ordered loop vector
enumerates the full cross product depth-first with the inner loop varying
fastest within each outer binding. -/
theorem C1_foreach_cross_product :
    ((ParseFile nestedForeachInput).1 = false
      ∧ (ParseFile nestedForeachInput).2.records.map
          (fun r => getAsUnquotedString r.name) = ["D13", "D14", "D23", "D24"])
    ∧ (∀ (i j : String) (xs ys : List Init),
        iterSets [⟨i, xs⟩, ⟨j, ys⟩]
          = xs.flatMap (fun x => ys.map (fun y => [⟨i, x⟩, ⟨j, y⟩]))) := by
  refine ⟨⟨by decide, by decide⟩, ?_⟩
  intro i j xs ys
  have hs : iterSets [⟨j, ys⟩] = ys.map (fun y => [(⟨j, y⟩ : IterRecord)]) := by
    induction ys with
    | nil => rfl
    | cons y ys2 ihy =>
      simp only [iterSets, List.flatMap_cons] at ihy ⊢
      rw [ihy]
      rfl
  show (xs.flatMap fun v => (iterSets [⟨j, ys⟩]).map fun env => ⟨i, v⟩ :: env) = _
  rw [hs]
  simp [List.map_map]
  rfl

theorem assemble_ok_iff :
    ∀ (items : List ObjItem) (cur : TGObject) (st : List (OpenScope × TGObject)),
      (∃ obj, assemble items cur st = Except.ok obj)
        ↔ balancedFrom st.length items = true := by
  intro items
  induction items with
  | nil =>
    intro cur st
    cases st with
    | nil => simp [assemble, balancedFrom]
    | cons top st' => simp [assemble, balancedFrom]
  | cons it rest ih =>
    intro cur st
    cases it with
    | itemDef l nm fs => simp [assemble, balancedFrom, ih]
    | itemForeachOpen l v xs => simp [assemble, balancedFrom, ih]
    | itemLetOpen l lrs => simp [assemble, balancedFrom, ih]
    | itemClose l =>
      cases st with
      | nil => simp [assemble, balancedFrom]
      | cons top st' =>
        obtain ⟨sc, prev⟩ := top
        cases sc <;> simp [assemble, balancedFrom, ih]

theorem ParseObjectList_ok_iff (items : List ObjItem) :
    (∃ obj, ParseObjectList items = Except.ok obj) ↔ balancedItems items = true :=
  assemble_ok_iff items TGObject.objNil []

theorem ParseFileItems_unbalanced {items : List ObjItem}
    (h : balancedItems items = false) :
    (ParseFileItems items).1 = true
    ∧ (ParseFileItems items).2.records = []
    ∧ (ParseFileItems items).2.diags ≠ [] := by
  have hno : ¬ ∃ obj, ParseObjectList items = Except.ok obj := by
    rw [ParseObjectList_ok_iff, h]
    simp
  cases he : ParseObjectList items with
  | ok obj => exact absurd ⟨obj, he⟩ hno
  | error l =>
    unfold ParseFileItems
    rw [he]
    exact ⟨rfl, rfl, by simp [PrintError, initState]⟩

/-- C7: the let stack and the loop vector are empty when `ParseFile`
starts and empty again when it returns; every evaluation restores both
stacks on every exit path; and over the raw item stream, parsing succeeds
exactly when every opened scope is closed — an unmatched scope still open
at end of input (or a stray close) is a fatal error: the error indicator is
returned with a location-tagged diagnostic and nothing is registered. -/
theorem C7_scope_stack_balance :
    (∀ (o : TGObject) (s : PState),
        (evalObj o s).2.letStack = s.letStack ∧ (evalObj o s).2.loops = s.loops)
    ∧ (∀ objs, (ParseFile objs).2.letStack = [] ∧ (ParseFile objs).2.loops = [])
    ∧ initState.letStack = [] ∧ initState.loops = []
    ∧ (∀ items, (∃ obj, ParseObjectList items = Except.ok obj)
          ↔ balancedItems items = true)
    ∧ (∀ items, balancedItems items = false →
        (ParseFileItems items).1 = true
        ∧ (ParseFileItems items).2.records = []
        ∧ (ParseFileItems items).2.diags ≠ []) :=
  ⟨evalObj_stack_inv,
   fun objs => ⟨(evalObj_stack_inv objs initState).1, (evalObj_stack_inv objs initState).2⟩,
   rfl, rfl, ParseObjectList_ok_iff,
   fun _ h => ParseFileItems_unbalanced h⟩

/-- Witness for C7new at a concrete ill-bracketed stream: a `foreach` whose
scope is still open at end of input is unbalanced, and parsing it fails
fatally — error indicator set, a diagnostic emitted, no record registered —
while the balanced one-def stream parses successfully. -/
theorem C7_scope_stack_balance_w :
    balancedItems [ObjItem.itemForeachOpen 3 "i" [Init.intInit 1]] = false
    ∧ (ParseFileItems [ObjItem.itemForeachOpen 3 "i" [Init.intInit 1]]).1 = true
    ∧ (ParseFileItems [ObjItem.itemForeachOpen 3 "i" [Init.intInit 1]]).2.records = []
    ∧ (ParseFileItems [ObjItem.itemForeachOpen 3 "i" [Init.intInit 1]]).2.diags ≠ []
    ∧ (∃ obj, ParseObjectList
        [ObjItem.itemForeachOpen 3 "i" [Init.intInit 1], ObjItem.itemClose 4]
          = Except.ok obj) := by
  have h : balancedItems [ObjItem.itemForeachOpen 3 "i" [Init.intInit 1]] = false := by
    decide
  obtain ⟨h1, h2, h3⟩ := C7_scope_stack_balance.2.2.2.2.2
    [ObjItem.itemForeachOpen 3 "i" [Init.intInit 1]] h
  refine ⟨h, h1, h2, h3, ?_⟩
  exact (C7_scope_stack_balance.2.2.2.2.1
    [ObjItem.itemForeachOpen 3 "i" [Init.intInit 1], ObjItem.itemClose 4]).mpr
    (by decide)

/-- C8: `ParseFile` returns `true` exactly when some error occurred — that
is, exactly when the (location-tagged) diagnostic stream is nonempty on
return — and every evaluation appends its diagnostics to the stream before
its error indicator propagates, so all diagnostics are emitted by the time
failure is reported. -/
theorem C8_parsefile_error_signal :
    (∀ objs, ((ParseFile objs).1 = true ↔ (ParseFile objs).2.diags ≠ []))
    ∧ (∀ (o : TGObject) (s : PState), ∃ ds,
        (evalObj o s).2.diags = s.diags ++ ds ∧ ((evalObj o s).1 = true ↔ ds ≠ [])) := by
  refine ⟨fun objs => ?_, evalObj_diag_inv⟩
  obtain ⟨ds, h1, h2⟩ := evalObj_diag_inv objs initState
  unfold ParseFile
  rw [h1, h2]
  simp [initState]

/-- Witness for C8 at concrete inputs: the duplicate-name foreach input
reports failure, and the empty object list reports success. -/
theorem C8_parsefile_error_signal_w :
    (ParseFile dupForeachInput).1 = true ∧ (ParseFile TGObject.objNil).1 = false := by
  constructor
  · exact (C8_parsefile_error_signal.1 dupForeachInput).mpr (by decide)
  · have h := C8_parsefile_error_signal.1 TGObject.objNil
    have hne : ¬ (ParseFile TGObject.objNil).1 = true := fun ht => (h.mp ht) (by decide)
    exact Bool.eq_false_iff.mpr hne

/-- C9: the string overload of `SetValue` returns exactly the same result as
the `Init*` overload applied to `StringInit::get(ValName)` with the same
remaining arguments. -/
theorem C9_setvalue_overload_equiv :
    ∀ (TheRec : Record) (Loc : SMLoc) (ValName : String) (BitList : List Nat) (V : Init),
      SetValueStr TheRec Loc ValName BitList V
        = SetValue TheRec Loc (StringInit.get ValName) BitList V :=
  fun _ _ _ _ _ => rfl

/-- C10: `Error` always returns `true` after appending the location-tagged
diagnostic, and `TokError` equals `Error` at the lexer's current location,
so a parser routine returning either necessarily reports failure. -/
theorem C10_error_returns_true :
    (∀ (L : SMLoc) (Msg : String) (ds : List Diag),
        (Error L Msg ds).1 = true ∧ (Error L Msg ds).2 = ds ++ [⟨L, Msg⟩])
    ∧ (∀ (Lex : LexState) (Msg : String) (ds : List Diag),
        TokError Lex Msg ds = Error Lex.curLoc Msg ds
        ∧ (TokError Lex Msg ds).1 = true) :=
  ⟨fun _ _ _ => ⟨rfl, rfl⟩, fun _ _ _ => ⟨rfl, rfl⟩⟩

/-- C3: when a record is finalized, the let stack is applied outermost scope
first and innermost last, so the innermost scope wins on a conflicting
target; a field assigned locally in the record body is left untouched by
every let override; and `let X = 7 in { def A; def B; }` yields both A and B
with X = 7 except where a local assignment (B's `X = 9`) wins. -/
theorem C3_let_stack_precedence :
    (∀ (r : Record) (stack : List (List LetRecord)) (n : String) (rv : RecordVal),
        getValue r n = some rv → rv.localInit = true →
        getValue ((ApplyLetStack r stack).2) n = some rv)
    ∧ (∀ (r : Record) (stack : List (List LetRecord)) (n : String) (rv : RecordVal)
        (v : Init) (loc : SMLoc),
        getValue r n = some rv → rv.localInit = false →
        getValue ((ApplyLetStack r ([⟨n, [], v, loc⟩] :: stack)).2) n
          = some { rv with value := v })
    ∧ ((ParseFile letInput).1 = false
        ∧ (ParseFile letInput).2.records.map
            (fun r => (getAsUnquotedString r.name, (getValue r "X").map RecordVal.value))
          = [("A", some (Init.intInit 7)), ("B", some (Init.intInit 9))]) :=
  ⟨fun r stack n rv h hl => getValue_ApplyLetStack_local stack r n rv h hl,
   fun _ _ _ _ v loc h hl => getValue_ApplyLetStack_inner h hl v loc,
   by decide, by decide⟩

/-- Witness for C3 at a concrete record and stack: the innermost scope's
override lands on the non-local field X even under an outer scope, and the
locally assigned field Y is untouched by an override targeting it. -/
theorem C3_let_stack_precedence_w :
    getValue ((ApplyLetStack
        ⟨Init.stringInit "W",
         [⟨"X", RecTy.intTy, Init.intInit 0, false⟩,
          ⟨"Y", RecTy.intTy, Init.intInit 1, true⟩]⟩
        [[⟨"X", [], Init.intInit 5, 0⟩], [⟨"X", [], Init.intInit 3, 0⟩]]).2) "X"
      = some ⟨"X", RecTy.intTy, Init.intInit 5, false⟩
    ∧ getValue ((ApplyLetStack
        ⟨Init.stringInit "W",
         [⟨"X", RecTy.intTy, Init.intInit 0, false⟩,
          ⟨"Y", RecTy.intTy, Init.intInit 1, true⟩]⟩
        [[⟨"Y", [], Init.intInit 5, 0⟩]]).2) "Y"
      = some ⟨"Y", RecTy.intTy, Init.intInit 1, true⟩ :=
  ⟨C3_let_stack_precedence.2.1
     ⟨Init.stringInit "W",
      [⟨"X", RecTy.intTy, Init.intInit 0, false⟩,
       ⟨"Y", RecTy.intTy, Init.intInit 1, true⟩]⟩
     [[⟨"X", [], Init.intInit 3, 0⟩]] "X"
     ⟨"X", RecTy.intTy, Init.intInit 0, false⟩ (Init.intInit 5) 0 (by decide) rfl,
   C3_let_stack_precedence.1
     ⟨Init.stringInit "W",
      [⟨"X", RecTy.intTy, Init.intInit 0, false⟩,
       ⟨"Y", RecTy.intTy, Init.intInit 1, true⟩]⟩
     [[⟨"Y", [], Init.intInit 5, 0⟩]] "Y"
     ⟨"Y", RecTy.intTy, Init.intInit 1, true⟩ (by decide) rfl⟩

/-- C4: explicit argument values bind positionally to the referent's formal
template-argument list, unfilled trailing formals take their declared
defaults, binding fails exactly when a formal is left with neither a value
nor a default (or there are more values than formals), and on failure
neither multiclass instantiation nor subclassing registers or changes
anything. -/
theorem C4_template_arg_binding :
    (∀ (formals : List TemplateArg) (args : List Init),
        bindArgs formals args = none ↔
          (formals.length < args.length ∨
           ∃ ta ∈ formals.drop args.length, ta.dflt = none))
    ∧ (∀ (formals : List TemplateArg) (args : List Init) (env : List IterRecord),
        bindArgs formals args = some env →
        env = (formals.zip args).map (fun p => (⟨p.1.name, p.2⟩ : IterRecord))
              ++ (formals.drop args.length).map
                   (fun ta => (⟨ta.name, ta.dflt.getD Init.unsetInit⟩ : IterRecord)))
    ∧ (∀ (db : List Record) (formals : List TemplateArg) (proto : Record)
        (vals : List Init), bindArgs formals vals = none →
        InstantiateMulticlassDef db formals proto vals = (true, db))
    ∧ (∀ (r : Record) (loc : SMLoc) (cls : ClassRec) (args : List Init),
        bindArgs cls.templateArgs args = none →
        AddSubClass r loc cls args = (true, r)) := by
  refine ⟨bindArgs_eq_none_iff, bindArgs_some_spec, ?_, ?_⟩
  · intro db formals proto vals h
    unfold InstantiateMulticlassDef
    rw [h]
  · intro r loc cls args h
    unfold AddSubClass
    rw [h]

/-- Witness for C4 at a concrete reference: a formal with neither an
explicit value nor a default makes binding fail, and the failed `defm`
instantiation leaves the empty database unchanged; a filled-plus-default
binding produces the positional-then-default environment. -/
theorem C4_template_arg_binding_w :
    bindArgs [⟨"a", none⟩] [] = none
    ∧ InstantiateMulticlassDef [] [⟨"a", none⟩] ⟨Init.stringInit "P", []⟩ [] = (true, [])
    ∧ bindArgs [⟨"a", none⟩, ⟨"b", some (Init.intInit 4)⟩] [Init.intInit 9]
        = some [⟨"a", Init.intInit 9⟩, ⟨"b", Init.intInit 4⟩] := by
  have h : bindArgs [⟨"a", none⟩] ([] : List Init) = none :=
    (C4_template_arg_binding.1 [⟨"a", none⟩] []).mpr
      (Or.inr ⟨⟨"a", none⟩, by simp, rfl⟩)
  refine ⟨h, C4_template_arg_binding.2.2.1 [] [⟨"a", none⟩] ⟨Init.stringInit "P", []⟩ [] h, ?_⟩
  decide

/-- C5: registering a record name that is already finalized fails with the
duplicate-definition error and leaves the database unchanged, so
finalization of a given name succeeds at most once per parse; concretely,
`foreach i = [1,1]` over `def E#i` registers E1 once and then reports a
duplicate-definition error. -/
theorem C5_duplicate_finalization :
    (∀ (db : List Record) (r : Record),
        (∃ r0 ∈ db, getAsUnquotedString r0.name = getAsUnquotedString r.name) →
        addDef db r = (true, db))
    ∧ (∀ (db : List Record) (r r' : Record), (addDef db r).1 = false →
        getAsUnquotedString r'.name = getAsUnquotedString r.name →
        addDef (addDef db r).2 r' = (true, (addDef db r).2))
    ∧ ((ParseFile dupForeachInput).1 = true
        ∧ (ParseFile dupForeachInput).2.records.map
            (fun r => getAsUnquotedString r.name) = ["E1"]
        ∧ (ParseFile dupForeachInput).2.diags = [⟨0, "def already defined"⟩]) := by
  refine ⟨fun db r h => addDef_dup h, ?_, by decide, by decide, by decide⟩
  intro db r r' h1 h2
  rw [addDef_fresh h1]
  exact addDef_dup ⟨r, by simp, h2.symm⟩

/-- Witness for C5 at a concrete database: re-registering the name F fails
and leaves the database as it was after the first registration. -/
theorem C5_duplicate_finalization_w :
    addDef [(⟨Init.stringInit "F", []⟩ : Record)] ⟨Init.stringInit "F", []⟩
      = (true, [⟨Init.stringInit "F", []⟩])
    ∧ addDef (addDef [] (⟨Init.stringInit "F", []⟩ : Record)).2 ⟨Init.stringInit "F", []⟩
      = (true, (addDef [] (⟨Init.stringInit "F", []⟩ : Record)).2) :=
  ⟨C5_duplicate_finalization.1 [⟨Init.stringInit "F", []⟩] ⟨Init.stringInit "F", []⟩
     ⟨⟨Init.stringInit "F", []⟩, by simp, rfl⟩,
   C5_duplicate_finalization.2.1 [] ⟨Init.stringInit "F", []⟩ ⟨Init.stringInit "F", []⟩
     (by decide) rfl⟩

/-- C6: a `SetValue` call that targets a non-existent field, or applies a
bit-range override with a bit position outside the target field's declared
`bits<w>` width, returns the error indicator and leaves the record — in
particular the target field's prior value — exactly unchanged. -/
theorem C6_setvalue_width_violation (r : Record) (loc : SMLoc) (nm : Init)
    (bits : List Nat) (v : Init) :
    (getValue r (getAsUnquotedString nm) = none →
       SetValue r loc nm bits v = (true, r))
    ∧ (∀ (rv : RecordVal) (w : Nat),
        getValue r (getAsUnquotedString nm) = some rv → rv.ty = RecTy.bitsTy w →
        (∃ i ∈ bits, w ≤ i) → SetValue r loc nm bits v = (true, r)) := by
  constructor
  · exact fun h => SetValue_not_found h
  · intro rv w h hty hw
    have hb : bits ≠ [] := by rintro rfl; simp at hw
    have hany : (bits.any fun i => w ≤ i) = true :=
      List.any_eq_true.mpr (by simpa using hw)
    unfold SetValue
    dsimp only
    rw [h]
    dsimp only
    rw [if_neg hb]
    obtain ⟨rn, rty, rvv, rli⟩ := rv
    dsimp only at hty
    subst hty
    cases v with
    | intInit n' => rfl
    | stringInit s' => rfl
    | varInit w' => rfl
    | pasteI a b => rfl
    | unsetInit => rfl
    | bitsInit vb =>
      dsimp only
      rw [if_pos (by rw [hany]; exact Bool.true_or _)]

/-- Witness for C6 at a concrete record: a bit-range override at position 2
of a `bits<2>` field fails and leaves the record unchanged, as does an
override of the missing field G. -/
theorem C6_setvalue_width_violation_w :
    SetValue ⟨Init.stringInit "R",
        [⟨"F", RecTy.bitsTy 2, Init.bitsInit [some true, some false], false⟩]⟩
        0 (Init.stringInit "F") [2] (Init.bitsInit [some true])
      = (true, ⟨Init.stringInit "R",
          [⟨"F", RecTy.bitsTy 2, Init.bitsInit [some true, some false], false⟩]⟩)
    ∧ SetValue ⟨Init.stringInit "R", []⟩ 0 (Init.stringInit "G") [] Init.unsetInit
      = (true, ⟨Init.stringInit "R", []⟩) :=
  ⟨(C6_setvalue_width_violation
      ⟨Init.stringInit "R",
       [⟨"F", RecTy.bitsTy 2, Init.bitsInit [some true, some false], false⟩]⟩
      0 (Init.stringInit "F") [2] (Init.bitsInit [some true])).2
      ⟨"F", RecTy.bitsTy 2, Init.bitsInit [some true, some false], false⟩ 2
      (by decide) rfl (by decide),
   (C6_setvalue_width_violation ⟨Init.stringInit "R", []⟩ 0 (Init.stringInit "G")
      [] Init.unsetInit).1 (by decide)⟩

/-- C2: for a single def subclassing a single class (no overrides, no
loops), the merged record's field set is exactly the union of the def's own
declared fields and the class's (transitively merged) fields; a locally
declared field keeps its own value untouched, and a field only declared in
the base is copied in (as an overridable, non-local field). -/
theorem C2_subclass_field_merge (defR : Record) (cls : ClassRec) (loc : SMLoc)
    (hargs : cls.templateArgs = [])
    (hcompat : ∀ n rvL rvB, getValue defR n = some rvL →
        getValue cls.body n = some rvB → rvL.ty = rvB.ty)
    (hnodup : (cls.body.values.map RecordVal.name).Nodup) :
    (AddSubClass defR loc cls []).1 = false
    ∧ (∀ n, (getValue (AddSubClass defR loc cls []).2 n).isSome
          ↔ ((getValue defR n).isSome ∨ (getValue cls.body n).isSome))
    ∧ (∀ n rv, getValue defR n = some rv →
        getValue (AddSubClass defR loc cls []).2 n = some rv)
    ∧ (∀ n rv, getValue defR n = none → getValue cls.body n = some rv →
        getValue (AddSubClass defR loc cls []).2 n
          = some { rv with localInit := false }) := by
  have hA : AddSubClass defR loc cls []
      = mergeFields defR loc
          (cls.body.values.map (fun bf => { bf with localInit := false })) := by
    unfold AddSubClass
    rw [hargs]
    rfl
  have hc : ∀ bf ∈ cls.body.values.map (fun bf => { bf with localInit := false }),
      ∀ rv, getValue defR bf.name = some rv → rv.ty = bf.ty := by
    intro bf hbf rv hrv
    obtain ⟨b0, hb0, rfl⟩ := List.mem_map.mp hbf
    exact hcompat b0.name rv b0 hrv (findVal_of_mem_nodup hb0 hnodup)
  have hn : (((cls.body.values.map (fun bf => { bf with localInit := false }))).map
      RecordVal.name).Nodup := by
    rw [List.map_map]
    exact hnodup
  obtain ⟨h1, h2⟩ := mergeFields_spec _ defR loc hc hn
  have hval : ∀ n, getValue (AddSubClass defR loc cls []).2 n
      = (findVal defR.values n).or
          (findVal ((cls.body.values.map (fun bf => { bf with localInit := false })).filter
            (fun bf => (getValue defR bf.name).isNone)) n) := by
    intro n
    rw [hA]
    show findVal (mergeFields defR loc _).2.values n = _
    rw [h2]
    exact findVal_append _ _ _
  have hfind : ∀ n rv, getValue defR n = none → getValue cls.body n = some rv →
      findVal ((cls.body.values.map (fun bf => { bf with localInit := false })).filter
          (fun bf => (getValue defR bf.name).isNone)) n
        = some { rv with localInit := false } := by
    intro n rv hnone hsome
    have hname : rv.name = n := findVal_name hsome
    have hmap : findVal (cls.body.values.map (fun bf => { bf with localInit := false })) n
        = some { rv with localInit := false } := by
      rw [findVal_map_localFalse]
      rw [show findVal cls.body.values n = some rv from hsome]
      rfl
    refine findVal_filter hmap ?_
    show (getValue defR ({ rv with localInit := false } : RecordVal).name).isNone = true
    have : ({ rv with localInit := false } : RecordVal).name = n := hname
    rw [this, hnone]
    rfl
  refine ⟨by rw [hA]; exact h1, ?_, ?_, ?_⟩
  · intro n
    rw [hval n]
    cases hd : findVal defR.values n with
    | some rvL =>
      constructor
      · intro _
        exact Or.inl (by show (findVal defR.values n).isSome; rw [hd]; rfl)
      · intro _
        rfl
    | none =>
      rw [Option.none_or]
      constructor
      · intro hs
        refine Or.inr ?_
        have hs2 := findVal_filter_isSome hs
        rw [findVal_map_localFalse] at hs2
        show (findVal cls.body.values n).isSome
        cases hc2 : findVal cls.body.values n with
        | some _ => rfl
        | none => rw [hc2] at hs2; cases hs2
      · rintro (hL | hB)
        · exact absurd hL (by show ¬ (findVal defR.values n).isSome; rw [hd]; simp)
        · obtain ⟨rvB, hrvB⟩ := Option.isSome_iff_exists.mp hB
          rw [hfind n rvB hd hrvB]
          rfl
  · intro n rv h
    rw [hval n]
    rw [show findVal defR.values n = some rv from h]
    rfl
  · intro n rv hnone hsome
    rw [hval n]
    rw [show findVal defR.values n = none from hnone, Option.none_or]
    exact hfind n rv hnone hsome

/-- Witness for C2 at a concrete class and def: the def's own field V keeps
its value, the base-only field W is copied in with the base's value, and the
field set is exactly the union. -/
theorem C2_subclass_field_merge_w :
    (AddSubClass ⟨Init.stringInit "D0", [⟨"V", RecTy.intTy, Init.intInit 1, true⟩]⟩ 0
        ⟨⟨Init.stringInit "C0",
          [⟨"V", RecTy.intTy, Init.intInit 2, false⟩,
           ⟨"W", RecTy.stringTy, Init.stringInit "s", false⟩]⟩, []⟩ []).1 = false
    ∧ getValue (AddSubClass ⟨Init.stringInit "D0",
          [⟨"V", RecTy.intTy, Init.intInit 1, true⟩]⟩ 0
        ⟨⟨Init.stringInit "C0",
          [⟨"V", RecTy.intTy, Init.intInit 2, false⟩,
           ⟨"W", RecTy.stringTy, Init.stringInit "s", false⟩]⟩, []⟩ []).2 "V"
      = some ⟨"V", RecTy.intTy, Init.intInit 1, true⟩
    ∧ getValue (AddSubClass ⟨Init.stringInit "D0",
          [⟨"V", RecTy.intTy, Init.intInit 1, true⟩]⟩ 0
        ⟨⟨Init.stringInit "C0",
          [⟨"V", RecTy.intTy, Init.intInit 2, false⟩,
           ⟨"W", RecTy.stringTy, Init.stringInit "s", false⟩]⟩, []⟩ []).2 "W"
      = some ⟨"W", RecTy.stringTy, Init.stringInit "s", false⟩ := by
  have h := C2_subclass_field_merge
    ⟨Init.stringInit "D0", [⟨"V", RecTy.intTy, Init.intInit 1, true⟩]⟩
    ⟨⟨Init.stringInit "C0",
      [⟨"V", RecTy.intTy, Init.intInit 2, false⟩,
       ⟨"W", RecTy.stringTy, Init.stringInit "s", false⟩]⟩, []⟩ 0
    rfl
    (by
      intro n rvL rvB h1 h2
      have hm1 := List.mem_of_find?_eq_some h1
      have hn1 := findVal_name h1
      simp only [List.mem_singleton] at hm1
      subst hm1
      dsimp only at hn1
      subst hn1
      rw [show getValue
            ⟨Init.stringInit "C0",
             [(⟨"V", RecTy.intTy, Init.intInit 2, false⟩ : RecordVal),
              ⟨"W", RecTy.stringTy, Init.stringInit "s", false⟩]⟩ "V"
            = some ⟨"V", RecTy.intTy, Init.intInit 2, false⟩ from by decide] at h2
      injection h2 with h2
      subst h2
      rfl)
    (by decide)
  exact ⟨h.1, h.2.2.1 "V" ⟨"V", RecTy.intTy, Init.intInit 1, true⟩ (by decide),
    h.2.2.2 "W" ⟨"W", RecTy.stringTy, Init.stringInit "s", false⟩ (by decide) (by decide)⟩

end TableGen
